import Mathlib

/-
  Shallow embedding of the DSPTest audio-bench core
  (src/input.rs, src/output.rs, src/analyze.rs, src/lib.rs).

  Conventions of the embedding:
  * f32/f64 machine floats are modelled as exact rationals (ℚ); float
    arithmetic is modelled as exact rational arithmetic.  The float
    constant `std::f32::consts::PI` is modelled by its exact rational
    value `pi32` (the IEEE-754 binary32 value nearest π).
  * The libm sine function used by the Sine waveform is external to the
    repository, so `Channel.process` is parameterized by an arbitrary
    function `sinF : ℚ → ℚ` standing for it; no theorem below depends on
    its values.
  * usize indices are ℕ with explicit `% n` where the code wraps.
-/

/-- Exact rational value of the IEEE-754 binary32 constant
`std::f32::consts::PI` (= 13176795 / 2^22). -/
def pi32 : ℚ := 13176795 / 4194304

namespace Input

/-- The `Wave` enum from src/input.rs: the Square variant carries a pulse
width payload `pw`. -/
inductive Wave where
  | sine
  | rampUp
  | rampDown
  | square (pw : ℚ)
  | const
deriving DecidableEq

/-- The discriminant of a `Wave` value, as compared by
`core::mem::discriminant` in the `PartialEq` impl (src/input.rs:20-26):
it identifies the variant only, never the payload. -/
def Wave.tag : Wave → ℕ
  | .sine => 0
  | .rampUp => 1
  | .rampDown => 2
  | .square _ => 3
  | .const => 4

/-- The `impl PartialEq for Wave` (src/input.rs:20-26): equality of
discriminants only. -/
def waveEq (a b : Wave) : Bool := a.tag == b.tag

/-- Oscillator channel state (src/input.rs:40-48). -/
structure Channel where
  wave : Wave
  phase : ℚ
  frequency : ℚ
  scale : ℚ
  offset : ℚ
  enabled : Bool
deriving DecidableEq

/-- Rust `Channel::new` (src/input.rs:51-60); the f32 literal 0.0022 is the
rational 11/5000 in the exact-arithmetic model. -/
def Channel.new : Channel :=
  { wave := .sine
    phase := 0
    frequency := 11 / 5000
    scale := 1
    offset := 0
    enabled := true }

/-- The `Command` enum from src/input.rs:114-121. -/
inductive Command where
  | setWave (wave : Wave)
  | setFrequency (frequency : ℚ)
  | setScale (scale : ℚ)
  | setOffset (offset : ℚ)
  | setEnabled
  | setDisabled
deriving DecidableEq

/-- Rust `Channel::handle_command` (src/input.rs:62-77). -/
def Channel.handle_command (c : Channel) : Command → Channel
  | .setWave wave => { c with wave := wave }
  | .setFrequency frequency => { c with frequency := frequency }
  | .setScale scale => { c with scale := scale }
  | .setOffset offset => { c with offset := offset }
  | .setEnabled => { c with enabled := true }
  | .setDisabled => { c with enabled := false }

/-- The phase wrap of `Channel::process` (src/input.rs:80-83):
`if self.phase >= 1.0 { self.phase -= 1.0 }`. -/
def wrapPhase (q : ℚ) : ℚ := if 1 ≤ q then q - 1 else q

/-- Rust `Channel::process` (src/input.rs:79-107): advance and wrap the phase,
return 0.0 when disabled, otherwise evaluate the selected waveform at the
new phase and apply scale and offset.  `sinF` stands for the external
f32 `sin` from libm. -/
def Channel.process (sinF : ℚ → ℚ) (c : Channel) : ℚ × Channel :=
  let c' : Channel := { c with phase := wrapPhase (c.phase + c.frequency) }
  if c'.enabled = false then
    (0, c')
  else
    let sample : ℚ :=
      match c'.wave with
      | .sine => sinF (2 * pi32 * c'.phase)
      | .rampUp => 2 * c'.phase - 1
      | .rampDown => 1 - 2 * c'.phase
      | .square pw => if c'.phase < pw then 1 else -1
      | .const => 0
    (c'.scale * sample + c'.offset, c')

/-- Iterated `process` calls, keeping only the state (the returned
samples are consumed by the audio callback, not by the channel). -/
def processN (sinF : ℚ → ℚ) : ℕ → Channel → Channel
  | 0, c => c
  | n + 1, c => processN sinF n (Channel.process sinF c).2

/-- One run interleaving a command sequence with audio processing: for
each command, first perform `ns.headD 0` calls to `process`, then apply
the command; the run ends immediately after the last command. -/
def runSeq (sinF : ℚ → ℚ) : List ℕ → List Command → Channel → Channel
  | _, [], c => c
  | ns, cmd :: cs, c =>
      runSeq sinF ns.tail cs ((processN sinF (ns.headD 0) c).handle_command cmd)

/-- The command-controlled portion of a channel state: every field except
`phase`. -/
structure CtrlView where
  wave : Wave
  frequency : ℚ
  scale : ℚ
  offset : ℚ
  enabled : Bool
deriving DecidableEq

/-- Project a channel onto its command-controlled fields. -/
def ctrlView (c : Channel) : CtrlView :=
  { wave := c.wave
    frequency := c.frequency
    scale := c.scale
    offset := c.offset
    enabled := c.enabled }

/-- The effect of a command on the command-controlled fields. -/
def viewHandle (v : CtrlView) : Command → CtrlView
  | .setWave wave => { v with wave := wave }
  | .setFrequency frequency => { v with frequency := frequency }
  | .setScale scale => { v with scale := scale }
  | .setOffset offset => { v with offset := offset }
  | .setEnabled => { v with enabled := true }
  | .setDisabled => { v with enabled := false }

end Input

namespace Output

/-- The constant `EVENT_UPDATE_INTERVAL` (src/output.rs:12). -/
def EVENT_UPDATE_INTERVAL : ℕ := 1024

/-- The constant `BUFFER_SIZE` (src/lib.rs:32): the capture-buffer capacity `SIZE`. -/
def BUFFER_SIZE : ℕ := 8192

/-- The `OutputMap` enum (src/output.rs:33-39). -/
inductive OutputMap where
  | both
  | left
  | right
deriving DecidableEq

/-- Output routing channel state (src/output.rs:59-64). -/
structure Channel where
  output_map : OutputMap
  volume : ℚ
  enabled : Bool
deriving DecidableEq

/-- Rust `Channel::new` (src/output.rs:67-73). -/
def Channel.new : Channel :=
  { output_map := .both, volume := 1 / 2, enabled := true }

/-- The routing loop of the audio callback (src/output.rs:154-174)
restricted to the two written slots: starting from
`out_frame[0] = 0.0; out_frame[1] = 0.0`, each enabled logical channel
adds its volume-scaled sample into the left and/or right accumulator
according to its `output_map`; disabled channels are skipped. -/
def routeStep (fr : ℚ × ℚ) (p : Channel × ℚ) : ℚ × ℚ :=
  if p.1.enabled = false then fr
  else
    let scale := p.1.volume
    match p.1.output_map with
    | .both => (fr.1 + scale * p.2, fr.2 + scale * p.2)
    | .left => (fr.1 + scale * p.2, fr.2)
    | .right => (fr.1, fr.2 + scale * p.2)

/-- The routing loop folded over all logical output channels, starting
from the zeroed pair of device slots. -/
def routeFrame (chs : List Channel) (outs : List ℚ) : ℚ × ℚ :=
  (chs.zip outs).foldl routeStep (0, 0)

/-- The contribution of one logical channel to the Left device slot. -/
def contribL (c : Channel) (o : ℚ) : ℚ :=
  if c.enabled = true ∧ (c.output_map = .both ∨ c.output_map = .left) then
    c.volume * o
  else 0

/-- The contribution of one logical channel to the Right device slot. -/
def contribR (c : Channel) (o : ℚ) : ℚ :=
  if c.enabled = true ∧ (c.output_map = .both ∨ c.output_map = .right) then
    c.volume * o
  else 0

/-- The same routing loop (src/output.rs:154-174) viewed as its effect on
the whole interleaved device frame, modelled as a map slot-index → sample
holding whatever the host provided: slots 0 and 1 are zeroed and then
accumulated into; no other slot is ever written. -/
def writeStep (fr : ℕ → ℚ) (p : Channel × ℚ) : ℕ → ℚ :=
  if p.1.enabled = false then fr
  else
    let scale := p.1.volume
    match p.1.output_map with
    | .both =>
        Function.update (Function.update fr 0 (fr 0 + scale * p.2)) 1
          ((Function.update fr 0 (fr 0 + scale * p.2)) 1 + scale * p.2)
    | .left => Function.update fr 0 (fr 0 + scale * p.2)
    | .right => Function.update fr 1 (fr 1 + scale * p.2)

/-- The routing loop over the whole frame: slots 0 and 1 are zeroed and
then accumulated into, the rest of the host frame is untouched. -/
def writeFrame (chs : List Channel) (outs : List ℚ) (frame : ℕ → ℚ) : ℕ → ℚ :=
  (chs.zip outs).foldl writeStep
    (Function.update (Function.update frame 0 0) 1 0)

/-- Per-frame capture-buffer index advance (src/output.rs:181):
`output_buffer.index = (output_buffer.index + 1) % SIZE`. -/
def advanceIndex (size idx : ℕ) : ℕ := (idx + 1) % size

/-- The capture-buffer index after processing a block of `n` frames. -/
def runBlock (size idx : ℕ) : ℕ → ℕ
  | 0 => idx
  | n + 1 => runBlock size (advanceIndex size idx) n

/-- The end-of-block snapshot condition (src/output.rs:186): an Event
push is attempted iff the post-block write index is a multiple of
`EVENT_UPDATE_INTERVAL`. -/
def pushAfterBlock (idx n : ℕ) : Bool :=
  runBlock BUFFER_SIZE idx n % EVENT_UPDATE_INTERVAL == 0

/-- Claim-side predicate, following the claim text for C7: writing `n`
further frames after `t` total recorded frames "crosses a multiple of
1024" iff a multiple of `EVENT_UPDATE_INTERVAL` lies in `(t, t+n]`. -/
def claimCrossed (t n : ℕ) : Bool :=
  t / EVENT_UPDATE_INTERVAL < (t + n) / EVENT_UPDATE_INTERVAL

end Output

namespace Analyze

/-- IEEE-754 double values as needed by the displayed spectrum state:
either a finite value (exact rational model) or one of the non-finite
values NaN, +Inf, -Inf that division by zero produces. -/
inductive F64 where
  | fin (q : ℚ)
  | nan
  | inf
  | ninf
deriving DecidableEq

/-- IEEE-754 division on the modelled doubles.  Only the finite/finite
cases arise in the embedded code; `0/0 = NaN`, `x/0 = ±Inf` for finite
nonzero `x`, and any non-finite operand is collapsed to NaN (the pass
below never produces one as an operand). -/
def F64.div : F64 → F64 → F64
  | .fin a, .fin b =>
      if b = 0 then
        if a = 0 then .nan else if 0 < a then .inf else .ninf
      else .fin (a / b)
  | _, _ => .nan

/-- The analyzer state that persists across passes
(src/lib.rs:58-61,118-121): `output_spectrum_filtered`,
`output_spectrum_magnitude[i].y` and `output_spectrum_phase`. -/
structure SpecState (n : ℕ) where
  filtered : Fin n → ℚ
  magY : Fin n → F64
  phaseArr : Fin n → ℚ

/-- The analyzer state as initialized by `Context::new`
(src/lib.rs:97-121): all zeros. -/
def freshState (n : ℕ) : SpecState n :=
  { filtered := fun _ => 0, magY := fun _ => .fin 0, phaseArr := fun _ => 0 }

/-- The scratch-array construction (src/lib.rs:134-139): sample `i` is
`fft_window_func[i] * buffer[channel][(start + i) % SIZE]` with imaginary
part zero. -/
def windowScratch (n : ℕ) (w buf : ℕ → ℚ) (start : ℕ) : Fin n → ℚ × ℚ :=
  fun i => (w i.val * buf ((start + i.val) % n), 0)

/-- Complex multiplication on rational pairs. -/
def cMul (a b : ℚ × ℚ) : ℚ × ℚ :=
  (a.1 * b.1 - a.2 * b.2, a.1 * b.2 + a.2 * b.1)

/-- The discrete Fourier transform computed by the external rustfft
`Radix4` (src/lib.rs:142-147), with the irrational twiddle factors left
abstract as `tw` (bin `k` is the sum over `i` of `x i * tw (i*k)`). -/
def dftQ (n : ℕ) (tw : ℕ → ℚ × ℚ) (x : Fin n → ℚ × ℚ) : Fin n → ℚ × ℚ :=
  fun k => (List.finRange n).foldl (fun acc i => let p := cMul (x i) (tw (i.val * k.val)); (acc.1 + p.1, acc.2 + p.2)) (0, 0)

/-- The per-bin analysis loop (src/lib.rs:149-171), consuming the polar
form `(norm, phase)` of each post-FFT bin (`to_polar` is external
num_complex code; for the zero bin it yields `(0, 0)`).  It updates the
one-pole filter `filtered[i] += 0.5 * (norm - filtered[i])`, writes the
filtered value into `magY[i]`, records the phase delta against the
previous pass and stores the new phase, while tracking the bin of
largest filtered magnitude.  Returns the new state (before
normalization) together with `(max_norm, max_norm_index,
max_norm_phase_diff)`. -/
def specStep (n : ℕ) (polar : Fin n → ℚ × ℚ)
    (acc : SpecState n × ℚ × ℕ × ℚ) (i : Fin n) : SpecState n × ℚ × ℕ × ℚ :=
  let st := acc.1
  let maxN := acc.2.1
  let norm := (polar i).1
  let nf := st.filtered i + 1 / 2 * (norm - st.filtered i)
  let pd := (polar i).2 - st.phaseArr i
  let st' : SpecState n :=
    { filtered := Function.update st.filtered i nf
      magY := Function.update st.magY i (.fin nf)
      phaseArr := Function.update st.phaseArr i (polar i).2 }
  if maxN < nf then (st', nf, i.val, pd) else (st', acc.2)

/-- The per-bin loop folded over all bins, starting from the carried
state and `max_norm = 0, max_norm_index = 0, max_norm_phase_diff = 0`. -/
def spectrumLoop (n : ℕ) (polar : Fin n → ℚ × ℚ) (s : SpecState n) :
    SpecState n × ℚ × ℕ × ℚ :=
  (List.finRange n).foldl (specStep n polar) (s, 0, 0, 0)

/-- One spectrum pass (src/lib.rs:149-175): the per-bin loop followed by
the unguarded normalization `output_spectrum_magnitude[i].y /= max_norm`
of every bin. -/
def analyzePass (n : ℕ) (polar : Fin n → ℚ × ℚ) (s : SpecState n) :
    SpecState n × ℚ × ℕ × ℚ :=
  let r := spectrumLoop n polar s
  ({ r.1 with magY := fun i => F64.div (r.1.magY i) (.fin r.2.1) }, r.2)

/-- The `k`-th phase-unwrap candidate frequency of the refinement loop
(src/lib.rs:188-199): `(dp + k·2π) / (2π·dt)`. -/
def cand (dp dt : ℚ) (k : ℕ) : ℚ := (dp + k * (2 * pi32)) / (2 * pi32 * dt)

/-- The candidates with an integer index, used to state claim C3 exactly
as written ("that candidate or the immediately preceding one"). -/
def candZ (dp dt : ℚ) (k : ℤ) : ℚ := (dp + k * (2 * pi32)) / (2 * pi32 * dt)

/-- The frequency-refinement loop (src/lib.rs:186-199), written with
explicit fuel since the Rust `loop` is unbounded: compute
`freq = (dp + phase) / (2π·dt)`; once `freq` exceeds the coarse estimate
`fe`, return `freq` or the previous iteration's `freq_prev`, whichever is
closer to `fe` (ties to `freq_prev`); otherwise advance `phase` by `2π`
and retry. -/
def refineLoop (dp dt fe : ℚ) : ℕ → ℚ → ℚ → Option ℚ
  | 0, _, _ => none
  | fuel + 1, phase, freq_prev =>
      let freq := (dp + phase) / (2 * pi32 * dt)
      if fe < freq then
        if freq - fe < fe - freq_prev then some freq else some freq_prev
      else
        refineLoop dp dt fe fuel (phase + 2 * pi32) freq

/-- The guarded refinement step (src/lib.rs:180-200): when the elapsed
frame counter is zero (`dt == 0.0`) the whole refinement is skipped and
the previous estimate is kept; otherwise the loop runs from
`phase = 0.0, freq_prev = 0.0` (with `prevEst` kept if the fuel is
insufficient). -/
def refineStep (counter : ℕ) (dp fe prevEst : ℚ) (fuel : ℕ) : ℚ :=
  if counter = 0 then prevEst
  else (refineLoop dp (counter : ℚ) fe fuel 0 0).getD prevEst

/-- The value of `freq_prev` entering iteration `k` of the loop: `0.0`
before the first iteration, afterwards the previous candidate. -/
def prevCand (dp dt : ℚ) : ℕ → ℚ
  | 0 => 0
  | k + 1 => cand dp dt k

/-- The specification of a completed refinement search: `K` is the least
candidate index whose frequency exceeds the coarse estimate `fe`, and
with any sufficient fuel the loop returns the closer of that candidate
and the previous iteration's value (ties and the pre-first-iteration 0
go to `prevCand`). -/
def refineSpec (dp dt fe : ℚ) (K : ℕ) : Prop :=
  (fe < cand dp dt K ∧ ∀ j < K, ¬ fe < cand dp dt j) ∧
  ∀ fuel, K < fuel →
    refineLoop dp dt fe fuel 0 0 =
      some (if cand dp dt K - fe < fe - prevCand dp dt K then cand dp dt K
            else prevCand dp dt K)

/-- Rust `f32::round`: round half away from zero. -/
def rustRound (q : ℚ) : ℤ :=
  if 0 ≤ q then ⌊q + 1 / 2⌋ else -⌊-q + 1 / 2⌋

/-- The tracking-phase advance (src/lib.rs:202-207): when the frequency
estimate is positive, `output_buffer_phase` advances by
`round(1/freq_est) as usize` modulo `SIZE`; otherwise it is left
unchanged. -/
def trackStep (fe : ℚ) (p size : ℕ) : ℕ :=
  if 0 < fe then (p + (rustRound (1 / fe)).toNat) % size else p

/-- The `TimeSeriesTracking` enum (src/analyze.rs:11-15). -/
inductive Tracking where
  | static
  | following
deriving DecidableEq

/-- The window start offset selection (src/lib.rs:209-212): Static mode
reads from the raw write index `start`, Following mode from the
accumulated `output_buffer_phase`. -/
def timeSeriesOffset : Tracking → ℕ → ℕ → ℕ
  | .static, start, _ => start
  | .following, _, p => p

/-- The time-series window read (src/lib.rs:214-217): rendered sample
`i` is `buffer[channel][(offset + i) % SIZE]`. -/
def renderWindow (size : ℕ) (buf : ℕ → ℚ) (offset i : ℕ) : ℚ :=
  buf ((offset + i) % size)

end Analyze

section Helpers

/-- Both branches of `Channel::process` return the same new state: the
input channel with its phase advanced by `frequency` and wrapped. -/
theorem process_snd (sinF : ℚ → ℚ) (c : Input.Channel) :
    (c.process sinF).2 = { c with phase := Input.wrapPhase (c.phase + c.frequency) } := by
  unfold Input.Channel.process
  dsimp only
  split <;> rfl

theorem ctrlView_process (sinF : ℚ → ℚ) (c : Input.Channel) :
    Input.ctrlView (c.process sinF).2 = Input.ctrlView c := by
  rw [process_snd]
  rfl

theorem ctrlView_processN (sinF : ℚ → ℚ) :
    ∀ (n : ℕ) (c : Input.Channel),
      Input.ctrlView (Input.processN sinF n c) = Input.ctrlView c := by
  intro n
  induction n with
  | zero => intro c; rfl
  | succ m ih =>
      intro c
      rw [Input.processN, ih, ctrlView_process]

theorem ctrlView_handle (c : Input.Channel) (cmd : Input.Command) :
    Input.ctrlView (c.handle_command cmd) = Input.viewHandle (Input.ctrlView c) cmd := by
  cases cmd <;> rfl

theorem runSeq_view (sinF : ℚ → ℚ) :
    ∀ (cs : List Input.Command) (ns : List ℕ) (c : Input.Channel),
      Input.ctrlView (Input.runSeq sinF ns cs c) =
        cs.foldl Input.viewHandle (Input.ctrlView c) := by
  intro cs
  induction cs with
  | nil => intro ns c; rfl
  | cons cmd cs ih =>
      intro ns c
      rw [Input.runSeq, ih, List.foldl_cons, ctrlView_handle, ctrlView_processN]

end Helpers

/-- C9: the `PartialEq` implementation of `Wave` compares only the
`core::mem::discriminant`, so two Square values are equal whatever their
pulse-width payloads, while values of distinct variants (distinct
discriminants) are unequal. -/
theorem c9_wave_eq_ignores_payload :
    (∀ a b : ℚ, Input.waveEq (.square a) (.square b) = true) ∧
    (∀ w v : Input.Wave, w.tag ≠ v.tag → Input.waveEq w v = false) := by
  constructor
  · intro a b
    rfl
  · intro w v h
    unfold Input.waveEq
    exact beq_eq_false_iff_ne.mpr h

/-- Witness for C9: pulse widths 1 and 2 differ, yet the Square values
compare equal; Sine and Const compare unequal. -/
theorem c9_witness :
    Input.waveEq (.square 1) (.square 2) = true ∧ (1 : ℚ) ≠ 2 ∧
      Input.waveEq .sine .const = false :=
  ⟨c9_wave_eq_ignores_payload.1 1 2, by norm_num,
    c9_wave_eq_ignores_payload.2 .sine .const (by decide)⟩

/-- C4: for a channel with phase in `[0,1)` and frequency in `(0,1)`,
`process()` advances the phase by exactly `frequency` modulo 1 with at
most one wrapping subtraction, lands again in `[0,1)`, and leaves every
other field unchanged — for every waveform setting and every model of
the external sine. -/
theorem c4_phase_advance (sinF : ℚ → ℚ) (c : Input.Channel)
    (h0 : 0 ≤ c.phase) (h1 : c.phase < 1)
    (hf0 : 0 < c.frequency) (hf1 : c.frequency < 1) :
    ((c.process sinF).2.phase = c.phase + c.frequency ∨
      (c.process sinF).2.phase = c.phase + c.frequency - 1) ∧
    (c.process sinF).2.phase = Int.fract (c.phase + c.frequency) ∧
    0 ≤ (c.process sinF).2.phase ∧ (c.process sinF).2.phase < 1 ∧
    (c.process sinF).2.wave = c.wave ∧
    (c.process sinF).2.frequency = c.frequency ∧
    (c.process sinF).2.scale = c.scale ∧
    (c.process sinF).2.offset = c.offset ∧
    (c.process sinF).2.enabled = c.enabled := by
  rw [process_snd]
  dsimp only
  unfold Input.wrapPhase
  set q := c.phase + c.frequency with hq
  have hq0 : 0 < q := by simp only [hq]; linarith
  have hq2 : q < 2 := by simp only [hq]; linarith
  by_cases h : 1 ≤ q
  · rw [if_pos h]
    have hfr : Int.fract q = q - 1 := by
      have h1' : Int.fract (q - 1) = q - 1 :=
        Int.fract_eq_self.mpr ⟨by linarith, by linarith⟩
      calc Int.fract q = Int.fract (q - 1 + 1) := by ring_nf
        _ = Int.fract (q - 1) := Int.fract_add_one (q - 1)
        _ = q - 1 := h1'
    refine ⟨Or.inr rfl, hfr.symm, by linarith, by linarith, rfl, rfl, rfl, rfl, rfl⟩
  · rw [if_neg h]
    push_neg at h
    have hfr : Int.fract q = q := Int.fract_eq_self.mpr ⟨le_of_lt hq0, h⟩
    exact ⟨Or.inl rfl, hfr.symm, le_of_lt hq0, h, rfl, rfl, rfl, rfl, rfl⟩

/-- Witness for C4: phase 1/2, frequency 3/4 wraps to 1/4 = fract(5/4). -/
theorem c4_witness :
    (Input.Channel.process (fun _ => 0) ⟨.sine, 1/2, 3/4, 1, 0, true⟩).2.phase =
      Int.fract ((1:ℚ)/2 + 3/4) :=
  (c4_phase_advance (fun _ => 0) ⟨.sine, 1/2, 3/4, 1, 0, true⟩
    (by norm_num) (by norm_num) (by norm_num) (by norm_num)).2.1

/-- C6: a disabled channel returns exactly 0.0 from `process()` whatever
its waveform, scale and offset, yet its phase advances exactly as it
would when enabled (the rest of the state is untouched), so re-enabling
resumes with a continuous phase. -/
theorem c6_disabled_silent (sinF : ℚ → ℚ) (c : Input.Channel)
    (h : c.enabled = false) :
    (c.process sinF).1 = 0 ∧
    (c.process sinF).2 = { c with phase := Input.wrapPhase (c.phase + c.frequency) } ∧
    (Input.Channel.process sinF { c with enabled := true }).2.phase =
      (c.process sinF).2.phase := by
  refine ⟨?_, process_snd sinF c, ?_⟩
  · unfold Input.Channel.process
    dsimp only
    rw [if_pos]
    exact h
  · rw [process_snd, process_snd]

/-- Witness for C6: a disabled square-wave channel with nonzero scale and
offset still returns 0.0. -/
theorem c6_witness :
    (Input.Channel.process (fun _ => 1) ⟨.square (1/2), 0, 1/4, 2, 3, false⟩).1 = 0 :=
  (c6_disabled_silent (fun _ => 1) ⟨.square (1/2), 0, 1/4, 2, 3, false⟩ rfl).1

/-- C8 (amended): applying the same ordered command sequence to the same
channel yields the same final values of every command-controlled field
(waveform, frequency, scale, offset, enabled), whatever number of
`process()` calls is interleaved in each run and whatever the external
sine is; only the phase can differ. -/
theorem c8_commands_determine_ctrl_fields (sinF sinG : ℚ → ℚ)
    (ns ms : List ℕ) (cs : List Input.Command) (c : Input.Channel) :
    Input.ctrlView (Input.runSeq sinF ns cs c) =
      Input.ctrlView (Input.runSeq sinG ms cs c) := by
  rw [runSeq_view, runSeq_view]

/-- Counterexample for C8 as stated: the full final state is not
interleaving-independent, because the phase keeps advancing during the
interleaved `process()` calls.  One `SetDisabled` command applied to a
fresh channel after 0 versus 1 `process()` calls yields different final
states (phases 0 and 11/5000). -/
theorem c8_counterexample :
    Input.runSeq (fun _ => 0) [0] [.setDisabled] Input.Channel.new ≠
      Input.runSeq (fun _ => 0) [1] [.setDisabled] Input.Channel.new := by
  intro h
  have hph := congrArg Input.Channel.phase h
  rw [Input.runSeq, Input.runSeq, Input.runSeq, Input.runSeq] at hph
  simp only [Input.processN, process_snd] at hph
  norm_num [Input.Channel.handle_command, Input.Channel.new, Input.wrapPhase] at hph

section RoutingHelpers

theorem routeStep_eq (fr : ℚ × ℚ) (p : Output.Channel × ℚ) :
    Output.routeStep fr p =
      (fr.1 + Output.contribL p.1 p.2, fr.2 + Output.contribR p.1 p.2) := by
  unfold Output.routeStep Output.contribL Output.contribR
  rcases p with ⟨c, o⟩
  rcases c with ⟨m, v, e⟩
  cases e <;> cases m <;> simp

theorem routeFoldl (l : List (Output.Channel × ℚ)) :
    ∀ a b : ℚ,
      l.foldl Output.routeStep (a, b) =
        (a + (l.map fun p => Output.contribL p.1 p.2).sum,
          b + (l.map fun p => Output.contribR p.1 p.2).sum) := by
  induction l with
  | nil => intro a b; simp
  | cons hd tl ih =>
      intro a b
      rw [List.foldl_cons, routeStep_eq, ih]
      simp only [List.map_cons, List.sum_cons]
      rw [Prod.mk.injEq]
      constructor <;> ring

end RoutingHelpers

/-- C5: the audio callback's per-frame routing zeroes both physical
slots, then each enabled logical channel adds its volume-scaled sample
to Left and Right per its `output_map` (Both to both, Left/Right to one)
and disabled channels add nothing — so each slot holds exactly the sum
of the contributions of the channels targeting it, and a slot targeted
by no enabled channel stays 0.0. -/
theorem c5_output_routing_mix (chs : List Output.Channel) (outs : List ℚ) :
    Output.routeFrame chs outs =
      (((chs.zip outs).map fun p => Output.contribL p.1 p.2).sum,
        ((chs.zip outs).map fun p => Output.contribR p.1 p.2).sum) ∧
    ((∀ p ∈ chs.zip outs,
        ¬(p.1.enabled = true ∧ (p.1.output_map = .both ∨ p.1.output_map = .left))) →
      (Output.routeFrame chs outs).1 = 0) ∧
    ((∀ p ∈ chs.zip outs,
        ¬(p.1.enabled = true ∧ (p.1.output_map = .both ∨ p.1.output_map = .right))) →
      (Output.routeFrame chs outs).2 = 0) := by
  have h : Output.routeFrame chs outs =
      (((chs.zip outs).map fun p => Output.contribL p.1 p.2).sum,
        ((chs.zip outs).map fun p => Output.contribR p.1 p.2).sum) := by
    unfold Output.routeFrame
    rw [routeFoldl]
    simp
  refine ⟨h, ?_, ?_⟩
  · intro hnone
    rw [h]
    apply List.sum_eq_zero
    intro x hx
    rw [List.mem_map] at hx
    obtain ⟨p, hp, hpx⟩ := hx
    rw [← hpx]
    exact if_neg (hnone p hp)
  · intro hnone
    rw [h]
    apply List.sum_eq_zero
    intro x hx
    rw [List.mem_map] at hx
    obtain ⟨p, hp, hpx⟩ := hx
    rw [← hpx]
    exact if_neg (hnone p hp)

/-- Witness for C5: a single enabled Right-mapped channel; the slot sums
hold and the Left slot, targeted by no enabled channel, is 0. -/
theorem c5_witness :
    Output.routeFrame [⟨.right, 1/2, true⟩] [2] =
      ((([(⟨.right, 1/2, true⟩, (2:ℚ))]).map fun p => Output.contribL p.1 p.2).sum,
        (([(⟨.right, 1/2, true⟩, (2:ℚ))]).map fun p => Output.contribR p.1 p.2).sum) ∧
    (Output.routeFrame [⟨.right, 1/2, true⟩] [2]).1 = 0 := by
  have h := c5_output_routing_mix [⟨.right, 1/2, true⟩] [2]
  exact ⟨h.1, h.2.1 (by simp)⟩

section FrameHelpers

theorem writeStep_preserves_high (fr : ℕ → ℚ) (p : Output.Channel × ℚ)
    (i : ℕ) (h : 2 ≤ i) : Output.writeStep fr p i = fr i := by
  have h0 : i ≠ 0 := by omega
  have h1 : i ≠ 1 := by omega
  unfold Output.writeStep
  rcases p with ⟨c, o⟩
  rcases c with ⟨m, v, e⟩
  cases e <;> cases m <;>
    simp [Function.update_noteq h0, Function.update_noteq h1]

theorem writeFoldl_preserves_high (l : List (Output.Channel × ℚ)) :
    ∀ (fr : ℕ → ℚ) (i : ℕ), 2 ≤ i →
      l.foldl Output.writeStep fr i = fr i := by
  induction l with
  | nil => intro fr i _; rfl
  | cons hd tl ih =>
      intro fr i h
      rw [List.foldl_cons, ih _ i h, writeStep_preserves_high fr hd i h]

theorem writeStep_route (fr : ℕ → ℚ) (p : Output.Channel × ℚ) :
    Output.writeStep fr p 0 = (Output.routeStep (fr 0, fr 1) p).1 ∧
    Output.writeStep fr p 1 = (Output.routeStep (fr 0, fr 1) p).2 := by
  unfold Output.writeStep Output.routeStep
  rcases p with ⟨c, o⟩
  rcases c with ⟨m, v, e⟩
  cases e <;> cases m <;> simp [Function.update]

theorem writeFoldl_route (l : List (Output.Channel × ℚ)) :
    ∀ fr : ℕ → ℚ,
      l.foldl Output.writeStep fr 0 = (l.foldl Output.routeStep (fr 0, fr 1)).1 ∧
      l.foldl Output.writeStep fr 1 = (l.foldl Output.routeStep (fr 0, fr 1)).2 := by
  induction l with
  | nil => intro fr; exact ⟨rfl, rfl⟩
  | cons hd tl ih =>
      intro fr
      rw [List.foldl_cons, List.foldl_cons]
      have hs := writeStep_route fr hd
      have ht := ih (Output.writeStep fr hd)
      rw [ht.1, ht.2, hs.1, hs.2]
      exact ⟨rfl, rfl⟩

end FrameHelpers

/-- C10: the audio callback writes only interleaved slots 0 (Left) and
1 (Right) of each device frame — every slot at index 2 or above keeps
exactly the value provided by the host — while slots 0 and 1 hold the
routed mix. -/
theorem c10_only_first_two_slots_written (chs : List Output.Channel)
    (outs : List ℚ) (frame : ℕ → ℚ) :
    (∀ i, 2 ≤ i → Output.writeFrame chs outs frame i = frame i) ∧
    Output.writeFrame chs outs frame 0 = (Output.routeFrame chs outs).1 ∧
    Output.writeFrame chs outs frame 1 = (Output.routeFrame chs outs).2 := by
  refine ⟨?_, ?_, ?_⟩
  · intro i h
    unfold Output.writeFrame
    rw [writeFoldl_preserves_high _ _ i h]
    have h0 : i ≠ 0 := by omega
    have h1 : i ≠ 1 := by omega
    rw [Function.update_noteq h1, Function.update_noteq h0]
  · unfold Output.writeFrame Output.routeFrame
    rw [(writeFoldl_route (chs.zip outs) _).1]
    simp [Function.update]
  · unfold Output.writeFrame Output.routeFrame
    rw [(writeFoldl_route (chs.zip outs) _).2]
    simp [Function.update]

/-- Witness for C10: with one enabled Both-mapped channel, slot 2 keeps
the host-provided value. -/
theorem c10_witness :
    Output.writeFrame [⟨.both, 1, true⟩] [1] (fun j => (j : ℚ)) 2 =
      (fun j => (j : ℚ)) 2 :=
  (c10_only_first_two_slots_written [⟨.both, 1, true⟩] [1] (fun j => (j : ℚ))).1
    2 (by norm_num)

section SnapshotHelpers

theorem runBlock_eq (size : ℕ) (hs : 0 < size) :
    ∀ (n idx : ℕ), idx < size → Output.runBlock size idx n = (idx + n) % size := by
  intro n
  induction n with
  | zero =>
      intro idx h
      simp [Output.runBlock, Nat.mod_eq_of_lt h]
  | succ m ih =>
      intro idx h
      rw [Output.runBlock, Output.advanceIndex,
        ih ((idx + 1) % size) (Nat.mod_lt _ hs), Nat.mod_add_mod]
      congr 1
      omega

theorem pushAfterBlock_mod (t n : ℕ) :
    Output.pushAfterBlock (t % Output.BUFFER_SIZE) n =
      ((t + n) % Output.EVENT_UPDATE_INTERVAL == 0) := by
  unfold Output.pushAfterBlock
  rw [runBlock_eq Output.BUFFER_SIZE (by norm_num [Output.BUFFER_SIZE])
      n (t % Output.BUFFER_SIZE) (Nat.mod_lt _ (by norm_num [Output.BUFFER_SIZE])),
    Nat.mod_add_mod,
    Nat.mod_mod_of_dvd (t + n) (by norm_num [Output.BUFFER_SIZE, Output.EVENT_UPDATE_INTERVAL])]

end SnapshotHelpers

/-- C7 (amended): the callback attempts an Event snapshot push after a
block iff the post-block capture write index is a multiple of
`EVENT_UPDATE_INTERVAL` (1024); when every block size divides 1024 (so
block boundaries stay 1024-aligned), this is exactly "the write index
crossed a multiple of 1024 during the block", but in general a block
that crosses a multiple without landing on one pushes nothing. -/
theorem c7_snapshot_push (t n : ℕ) (hn : 0 < n)
    (hd : n ∣ Output.EVENT_UPDATE_INTERVAL) (ht : n ∣ t) :
    Output.pushAfterBlock (t % Output.BUFFER_SIZE) n =
      ((t + n) % Output.EVENT_UPDATE_INTERVAL == 0) ∧
    (Output.pushAfterBlock (t % Output.BUFFER_SIZE) n = true ↔
      Output.claimCrossed t n = true) := by
  set d := Output.EVENT_UPDATE_INTERVAL with hdd
  have hdpos : 0 < d := by norm_num [hdd, Output.EVENT_UPDATE_INTERVAL]
  refine ⟨pushAfterBlock_mod t n, ?_⟩
  rw [pushAfterBlock_mod t n]
  unfold Output.claimCrossed
  rw [beq_iff_eq, decide_eq_true_eq]
  constructor
  · intro h
    have hdvd : d ∣ (t + n) := Nat.dvd_of_mod_eq_zero h
    have hnd : n ≤ d := Nat.le_of_dvd hdpos hd
    have hmul : (t + n) / d * d = t + n := Nat.div_mul_cancel hdvd
    rw [Nat.div_lt_iff_lt_mul hdpos, hmul]
    omega
  · intro h
    set m := (t + n) / d with hm
    have hub : m * d ≤ t + n := Nat.div_mul_le_self (t + n) d
    have hlb : t < m * d := by
      rw [← Nat.div_lt_iff_lt_mul hdpos]
      exact h
    have hnm : n ∣ m * d := Dvd.dvd.mul_left hd m
    have hdiff : n ∣ (m * d - t) := Nat.dvd_sub' hnm ht
    have hle : m * d - t ≤ n := by omega
    have hpos : 0 < m * d - t := by omega
    have heq : m * d - t = n := Nat.le_antisymm hle (Nat.le_of_dvd hpos hdiff)
    have : t + n = m * d := by omega
    rw [this]
    exact Nat.mul_mod_left m d

/-- Witness for C7: block size 512 divides 1024; from 512 aligned frames,
one further 512-frame block lands on 1024, pushes, and indeed crossed. -/
theorem c7_witness :
    Output.pushAfterBlock (512 % Output.BUFFER_SIZE) 512 =
      ((512 + 512) % Output.EVENT_UPDATE_INTERVAL == 0) ∧
    (Output.pushAfterBlock (512 % Output.BUFFER_SIZE) 512 = true ↔
      Output.claimCrossed 512 512 = true) :=
  c7_snapshot_push 512 512 (by norm_num)
    (by norm_num [Output.EVENT_UPDATE_INTERVAL]) (by norm_num)

/-- Counterexample for C7 as stated: a single 1025-frame block from a
fresh stream crosses the multiple 1024 of `EVENT_UPDATE_INTERVAL`, yet
the code attempts no push because the post-block write index is 1025,
not a multiple of 1024. -/
theorem c7_counterexample :
    Output.pushAfterBlock 0 1025 = false ∧ Output.claimCrossed 0 1025 = true := by
  constructor
  · have h0 : (0:ℕ) = 0 % Output.BUFFER_SIZE := by
      norm_num [Output.BUFFER_SIZE]
    rw [h0, pushAfterBlock_mod 0 1025]
    norm_num [Output.EVENT_UPDATE_INTERVAL]
  · norm_num [Output.claimCrossed, Output.EVENT_UPDATE_INTERVAL]

/-- C2 (amended): when the frequency estimate is positive, each analysis
pass advances the sample-offset accumulator `output_buffer_phase` by
`round(1/freq_estimate)` samples (one estimated period, independent of
`dt`) modulo `SIZE`, and the result stays below `SIZE`; when the
estimate is not positive the accumulator is left unchanged (it does not
fall back to the write boundary).  Following mode reads the window
starting at the accumulator value itself, Static mode at the raw write
index, and rendered sample `i` is `buffer[(offset + i) % SIZE]`. -/
theorem c2_tracking_advance (fe : ℚ) (p size start : ℕ) (hs : 0 < size) :
    (fe ≤ 0 → Analyze.trackStep fe p size = p) ∧
    (0 < fe →
      Analyze.trackStep fe p size =
        (p + (Analyze.rustRound (1 / fe)).toNat) % size ∧
      Analyze.trackStep fe p size < size) ∧
    Analyze.timeSeriesOffset .following start p = p ∧
    Analyze.timeSeriesOffset .static start p = start ∧
    (∀ (buf : ℕ → ℚ) (i : ℕ),
      Analyze.renderWindow size buf (Analyze.timeSeriesOffset .following start p) i =
        buf ((p + i) % size)) := by
  refine ⟨?_, ?_, rfl, rfl, fun buf i => rfl⟩
  · intro h
    rw [Analyze.trackStep, if_neg (not_lt.mpr h)]
  · intro h
    rw [Analyze.trackStep, if_pos h]
    exact ⟨rfl, Nat.mod_lt _ hs⟩

/-- Witness for C2 (amended): freq estimate 1/4, accumulator 3, SIZE 8:
the accumulator advances by round(4) = 4 to (3+4) % 8 = 7 < 8. -/
theorem c2_witness :
    Analyze.trackStep (1/4) 3 8 =
      (3 + (Analyze.rustRound (1 / ((1:ℚ)/4))).toNat) % 8 ∧
    Analyze.trackStep (1/4) 3 8 < 8 :=
  (c2_tracking_advance (1/4) 3 8 0 (by norm_num)).2.1 (by norm_num)

/-- Counterexample for C2 as stated: with freq estimate 0 (not positive),
accumulator 5 and write index 0, Following mode reads from offset 5 —
the previous accumulator value — not from the raw write boundary 0 the
claim requires as fallback. -/
theorem c2_counterexample :
    Analyze.trackStep 0 5 8 = 5 ∧
    Analyze.timeSeriesOffset .following 0 (Analyze.trackStep 0 5 8) = 5 ∧
    Analyze.timeSeriesOffset .following 0 (Analyze.trackStep 0 5 8) ≠ 0 := by
  have h : Analyze.trackStep 0 5 8 = 5 := by
    rw [Analyze.trackStep, if_neg (lt_irrefl 0)]
  refine ⟨h, ?_, ?_⟩
  · rw [h]
    rfl
  · rw [h]
    norm_num [Analyze.timeSeriesOffset]

section SilentHelpers

theorem specStep_silent (n : ℕ) (st : Analyze.SpecState n) (rest : ℚ × ℕ × ℚ)
    (hf : ∀ j, st.filtered j = 0) (hm : rest.1 = 0) (i : Fin n) :
    Analyze.specStep n (fun _ => (0, 0)) (st, rest) i =
      ({ filtered := Function.update st.filtered i 0
         magY := Function.update st.magY i (.fin 0)
         phaseArr := Function.update st.phaseArr i 0 }, rest) := by
  unfold Analyze.specStep
  dsimp only
  rw [hf i, hm]
  norm_num

theorem silentFoldl (n : ℕ) (l : List (Fin n)) :
    ∀ (st : Analyze.SpecState n) (rest : ℚ × ℕ × ℚ),
      (∀ j, st.filtered j = 0) → rest.1 = 0 →
      (∀ j, (l.foldl (Analyze.specStep n (fun _ => (0, 0))) (st, rest)).1.filtered j = 0) ∧
      (l.foldl (Analyze.specStep n (fun _ => (0, 0))) (st, rest)).2.1 = 0 ∧
      (∀ j, (l.foldl (Analyze.specStep n (fun _ => (0, 0))) (st, rest)).1.magY j = st.magY j ∨
        (l.foldl (Analyze.specStep n (fun _ => (0, 0))) (st, rest)).1.magY j = .fin 0) ∧
      (∀ j ∈ l, (l.foldl (Analyze.specStep n (fun _ => (0, 0))) (st, rest)).1.magY j = .fin 0) := by
  induction l with
  | nil =>
      intro st rest hf hm
      exact ⟨hf, hm, fun j => Or.inl rfl, fun j hj => absurd hj (List.not_mem_nil j)⟩
  | cons hd tl ih =>
      intro st rest hf hm
      rw [List.foldl_cons, specStep_silent n st rest hf hm hd]
      have hf' : ∀ j, (Function.update st.filtered hd 0) j = 0 := by
        intro j
        by_cases hj : j = hd
        · rw [hj, Function.update_same]
        · rw [Function.update_noteq hj]
          exact hf j
      obtain ⟨rf, rm, rpres, rmem⟩ := ih
        ({ filtered := Function.update st.filtered hd 0
           magY := Function.update st.magY hd (.fin 0)
           phaseArr := Function.update st.phaseArr hd 0 }) rest hf' hm
      refine ⟨rf, rm, ?_, ?_⟩
      · intro j
        rcases rpres j with h | h
        · dsimp only at h
          by_cases hj : j = hd
          · rw [h, hj, Function.update_same]
            exact Or.inr rfl
          · rw [h, Function.update_noteq hj]
            exact Or.inl rfl
        · exact Or.inr h
      · intro j hj
        rcases List.mem_cons.mp hj with hj | hj
        · rcases rpres j with h | h
          · dsimp only at h
            rw [h, hj, Function.update_same]
          · exact h
        · exact rmem j hj

end SilentHelpers

/-- C1: the normalization divide is NOT guarded.  On a silent capture
window (windowed scratch all zero, hence every DFT bin zero, hence every
polar pair `(0, 0)`) starting from the freshly initialized analyzer
state, `max_norm` stays 0 and the unconditional
`output_spectrum_magnitude[i].y /= max_norm` computes `0.0 / 0.0`,
writing IEEE NaN into every bin of the displayed spectrum state —
contradicting the claim that no NaN is written. -/
theorem c1_silent_input_writes_nan (n : ℕ) (w : ℕ → ℚ) (start : ℕ)
    (tw : ℕ → ℚ × ℚ) :
    Analyze.windowScratch n w (fun _ => 0) start = (fun _ => (0, 0)) ∧
    Analyze.dftQ n tw (fun _ => (0, 0)) = (fun _ => (0, 0)) ∧
    ∀ i : Fin n,
      (Analyze.analyzePass n (fun _ => (0, 0)) (Analyze.freshState n)).1.magY i =
        Analyze.F64.nan := by
  refine ⟨?_, ?_, ?_⟩
  · funext i
    simp [Analyze.windowScratch]
  · funext k
    unfold Analyze.dftQ
    generalize List.finRange n = l
    induction l with
    | nil => rfl
    | cons hd tl ih =>
        rw [List.foldl_cons]
        norm_num [Analyze.cMul]
  · intro i
    unfold Analyze.analyzePass
    dsimp only
    have h := silentFoldl n (List.finRange n) (Analyze.freshState n) (0, 0, 0)
      (fun j => rfl) rfl
    have hmag : (Analyze.spectrumLoop n (fun _ => (0, 0)) (Analyze.freshState n)).1.magY i =
        .fin 0 := h.2.2.2 i (List.mem_finRange i)
    have hmax : (Analyze.spectrumLoop n (fun _ => (0, 0)) (Analyze.freshState n)).2.1 = 0 :=
      h.2.1
    rw [hmag, hmax]
    simp [Analyze.F64.div]

section RefineHelpers

theorem two_pi32_pos : (0:ℚ) < 2 * pi32 := by norm_num [pi32]

theorem refineLoop_succ (dp dt fe : ℚ) (n : ℕ) (phase prev : ℚ) :
    Analyze.refineLoop dp dt fe (n + 1) phase prev =
      (if fe < (dp + phase) / (2 * pi32 * dt) then
        (if (dp + phase) / (2 * pi32 * dt) - fe < fe - prev then
          some ((dp + phase) / (2 * pi32 * dt))
        else some prev)
      else
        Analyze.refineLoop dp dt fe n (phase + 2 * pi32)
          ((dp + phase) / (2 * pi32 * dt))) := rfl

theorem cand_exists (dp fe dt : ℚ) (hdt : 0 < dt) :
    ∃ k : ℕ, fe < Analyze.cand dp dt k := by
  obtain ⟨k, hk⟩ := exists_nat_gt ((fe * (2 * pi32 * dt) - dp) / (2 * pi32))
  refine ⟨k, ?_⟩
  unfold Analyze.cand
  rw [lt_div_iff₀ (mul_pos two_pi32_pos hdt)]
  rw [div_lt_iff₀ two_pi32_pos] at hk
  linarith

theorem refineLoop_run (dp dt fe : ℚ) (K : ℕ)
    (hK : fe < Analyze.cand dp dt K)
    (hmin : ∀ j < K, ¬ fe < Analyze.cand dp dt j) :
    ∀ fuel, ∀ j ≤ K, K - j < fuel →
      Analyze.refineLoop dp dt fe fuel ((j : ℚ) * (2 * pi32)) (Analyze.prevCand dp dt j) =
        some (if Analyze.cand dp dt K - fe < fe - Analyze.prevCand dp dt K
              then Analyze.cand dp dt K else Analyze.prevCand dp dt K) := by
  intro fuel
  induction fuel with
  | zero =>
      intro j hj hlt
      exact (Nat.not_lt_zero _ hlt).elim
  | succ m ih =>
      intro j hj hlt
      rw [refineLoop_succ]
      have hfreq : (dp + (j : ℚ) * (2 * pi32)) / (2 * pi32 * dt) = Analyze.cand dp dt j := rfl
      rw [hfreq]
      by_cases hjK : j = K
      · subst hjK
        rw [if_pos hK, apply_ite some]
      · have hjlt : j < K := lt_of_le_of_ne hj hjK
        rw [if_neg (hmin j hjlt)]
        have hph : (j : ℚ) * (2 * pi32) + 2 * pi32 = ((j + 1 : ℕ) : ℚ) * (2 * pi32) := by
          push_cast
          ring
        have hprev : Analyze.cand dp dt j = Analyze.prevCand dp dt (j + 1) := rfl
        rw [hph, hprev]
        exact ih (j + 1) hjlt (by omega)

end RefineHelpers

/-- C3 (amended): for every positive elapsed-frame count `dt` and every
phase delta `dp`, successive unwrap candidates increase by exactly
`1/dt`; the loop terminates — with any fuel beyond the least candidate
index `K` exceeding the coarse estimate it returns either candidate `K`
or the previous iteration's value (which is candidate `K-1` when `K > 0`
and the initial `freq_prev = 0.0` when the very first candidate already
exceeds the estimate); and when `dt == 0` the whole refinement is
skipped and the previous estimate is kept. -/
theorem c3_refine_terminates (dp fe : ℚ) (counter : ℕ) (hc : 0 < counter) :
    (∀ k : ℕ, Analyze.cand dp (counter : ℚ) (k + 1) - Analyze.cand dp (counter : ℚ) k =
      1 / (counter : ℚ)) ∧
    (∃ K : ℕ, Analyze.refineSpec dp (counter : ℚ) fe K) ∧
    (∀ prevEst fuel, Analyze.refineStep 0 dp fe prevEst fuel = prevEst) := by
  have hdt : (0 : ℚ) < (counter : ℚ) := by exact_mod_cast hc
  have hdt' : ((counter : ℚ)) ≠ 0 := ne_of_gt hdt
  have h2p' : (2 * pi32) ≠ 0 := ne_of_gt two_pi32_pos
  refine ⟨?_, ?_, ?_⟩
  · intro k
    unfold Analyze.cand
    rw [div_sub_div _ _ (mul_ne_zero h2p' hdt') (mul_ne_zero h2p' hdt')]
    push_cast
    field_simp
    ring
  · have hex : ∃ k : ℕ, fe < Analyze.cand dp (counter : ℚ) k :=
      cand_exists dp fe (counter : ℚ) hdt
    refine ⟨Nat.find hex, ⟨Nat.find_spec hex, fun j hj => Nat.find_min hex hj⟩, ?_⟩
    intro fuel hfuel
    have h := refineLoop_run dp (counter : ℚ) fe (Nat.find hex) (Nat.find_spec hex)
      (fun j hj => Nat.find_min hex hj) fuel 0 (Nat.zero_le _) (by omega)
    have h0 : ((0 : ℕ) : ℚ) * (2 * pi32) = 0 := by norm_num
    rw [h0] at h
    exact h
  · intro prevEst fuel
    rfl

/-- Witness for C3 (amended), at `dp = 0`, `fe = 0`, `counter = 1`. -/
theorem c3_witness :
    (∀ k : ℕ, Analyze.cand 0 ((1 : ℕ) : ℚ) (k + 1) - Analyze.cand 0 ((1 : ℕ) : ℚ) k =
      1 / ((1 : ℕ) : ℚ)) ∧
    (∃ K : ℕ, Analyze.refineSpec 0 ((1 : ℕ) : ℚ) 0 K) ∧
    (∀ prevEst fuel, Analyze.refineStep 0 0 0 prevEst fuel = prevEst) :=
  c3_refine_terminates 0 0 1 (by norm_num)

/-- Counterexample for C3 as stated: with `dp = π`, `dt = 1`, coarse
estimate 0 (peak bin 0), the first candidate `1/2` already exceeds the
estimate and the loop returns the initial `freq_prev = 0.0`, which is
neither the first exceeding candidate (`1/2`) nor the immediately
preceding candidate (`k = -1`, i.e. `-1/2`). -/
theorem c3_counterexample :
    Analyze.refineLoop pi32 1 0 2 0 0 = some 0 ∧
    (0 : ℚ) < Analyze.candZ pi32 1 0 ∧
    Analyze.candZ pi32 1 (-1) < 0 ∧
    (0 : ℚ) ≠ Analyze.candZ pi32 1 0 ∧
    (0 : ℚ) ≠ Analyze.candZ pi32 1 (-1) := by
  have hc0 : Analyze.candZ pi32 1 0 = 1 / 2 := by
    norm_num [Analyze.candZ, pi32]
  have hc1 : Analyze.candZ pi32 1 (-1) = -(1 / 2) := by
    rw [Analyze.candZ]
    rw [div_eq_iff (by norm_num [pi32] : (2 * pi32 * 1 : ℚ) ≠ 0)]
    norm_num [pi32]
  refine ⟨?_, ?_, ?_, ?_, ?_⟩
  · have hfreq : (pi32 + 0) / (2 * pi32 * 1) = (1 : ℚ) / 2 := by
      norm_num [pi32]
    rw [refineLoop_succ, hfreq]
    norm_num
  · rw [hc0]
    norm_num
  · rw [hc1]
    norm_num
  · rw [hc0]
    norm_num
  · rw [hc1]
    norm_num
